import Mathlib

/-!
Verification development for the hindsight repository.

The repository maintains per-agent long-term memory: a personality profile
(six bounded traits), a free-text background narrative, and a store of memory
facts served through budgeted ranked recall.  The MemoryEngine itself (profile
store, background merge engine, personality inference, recall engine) is
exercised by the test suite under `hindsight-api/tests/`; the CLI lives in
`hindsight-embed/hindsight_embed/cli.py`.

The MemoryEngine operations are modelled from the specification (the engine's
own source is not part of the checked tree, only its tests and callers); the
configuration loading and the recall CLI output are embedded directly from
`cli.py`.
-/

namespace Hindsight

/-- Trait values are modelled as rationals; the spec constrains each to [0,1]. -/
def inUnit (q : ℚ) : Prop := 0 ≤ q ∧ q ≤ 1

instance (q : ℚ) : Decidable (inUnit q) := by
  unfold inUnit; infer_instance

/-- Modelled from the spec: the six-trait personality vector
(openness, conscientiousness, extraversion, agreeableness, neuroticism,
bias_strength), each a float in [0,1]. -/
structure Personality where
  openness : ℚ
  conscientiousness : ℚ
  extraversion : ℚ
  agreeableness : ℚ
  neuroticism : ℚ
  bias_strength : ℚ
  deriving DecidableEq, Repr

/-- All six traits lie in [0,1]. -/
def Personality.InBounds (p : Personality) : Prop :=
  inUnit p.openness ∧ inUnit p.conscientiousness ∧ inUnit p.extraversion ∧
  inUnit p.agreeableness ∧ inUnit p.neuroticism ∧ inUnit p.bias_strength

instance (p : Personality) : Decidable p.InBounds := by
  unfold Personality.InBounds; infer_instance

/-- Modelled from the spec: defaults are 0.5 on first creation. -/
def defaultPersonality : Personality :=
  ⟨mkRat 1 2, mkRat 1 2, mkRat 1 2, mkRat 1 2, mkRat 1 2, mkRat 1 2⟩

/-- Modelled from the spec: the background is a canonical deduplicated
narrative, modelled as an association list from topic to the sentence
currently asserted about that topic. -/
abbrev BackgroundFacts := List (String × String)

/-- A natural-language statement, modelled as the list of (topic, sentence)
assertions it expresses. -/
abbrev StatementFacts := List (String × String)

/-- Modelled from the spec: an agent profile is a personality vector plus a
background narrative (timestamps are not modelled). -/
structure Profile where
  personality : Personality
  background : BackgroundFacts
  deriving DecidableEq, Repr

def defaultProfile : Profile := ⟨defaultPersonality, []⟩

/-- Modelled from the spec: the agent profile store, one row per agent_id. -/
abbrev Store := List (String × Profile)

def storeGet : Store → String → Option Profile
  | [], _ => none
  | (a, p) :: rest, aid => if a = aid then some p else storeGet rest aid

def storeSet : Store → String → Profile → Store
  | [], aid, p => [(aid, p)]
  | (a, q) :: rest, aid, p =>
      if a = aid then (a, p) :: rest else (a, q) :: storeSet rest aid p

/-- The profile an operation observes for an agent: the stored row, or the
default row that lazy creation would provision. -/
def profileOf (st : Store) (aid : String) : Profile :=
  (storeGet st aid).getD defaultProfile

/-- Modelled from the spec: `get_profile` returns the existing profile or
atomically creates one with default personality (all 0.5) and empty
background; it never fails for a well-formed agent_id. -/
def getProfile (st : Store) (aid : String) : Profile × Store :=
  match storeGet st aid with
  | some p => (p, st)
  | none => (defaultProfile, storeSet st aid defaultProfile)

/-- Error taxonomy of the spec (the cases the modelled operations can raise). -/
inductive HsError where
  | validationError
  | externalServiceError
  deriving DecidableEq, Repr

/-- Modelled from the spec: a partial trait map supplying only some traits. -/
structure TraitUpdate where
  openness : Option ℚ := none
  conscientiousness : Option ℚ := none
  extraversion : Option ℚ := none
  agreeableness : Option ℚ := none
  neuroticism : Option ℚ := none
  bias_strength : Option ℚ := none
  deriving DecidableEq, Repr

def validTraitOpt : Option ℚ → Bool
  | none => true
  | some q => decide (inUnit q)

/-- Every supplied trait value lies in [0,1]. -/
def TraitUpdate.valid (t : TraitUpdate) : Bool :=
  validTraitOpt t.openness && validTraitOpt t.conscientiousness &&
  validTraitOpt t.extraversion && validTraitOpt t.agreeableness &&
  validTraitOpt t.neuroticism && validTraitOpt t.bias_strength

/-- Overwrite exactly the supplied traits, leaving the rest unchanged. -/
def applyUpdate (p : Personality) (t : TraitUpdate) : Personality :=
  ⟨t.openness.getD p.openness,
   t.conscientiousness.getD p.conscientiousness,
   t.extraversion.getD p.extraversion,
   t.agreeableness.getD p.agreeableness,
   t.neuroticism.getD p.neuroticism,
   t.bias_strength.getD p.bias_strength⟩

/-- Modelled from the spec: `update_personality` overwrites only the supplied
traits, rejects (does not clamp) any supplied value outside [0,1] with a
ValidationError raised before any mutation, and persists on success. -/
def updatePersonality (st : Store) (aid : String) (t : TraitUpdate) :
    Except HsError Profile × Store :=
  if t.valid then
    let p := profileOf st aid
    let p2 : Profile := ⟨applyUpdate p.personality t, p.background⟩
    (Except.ok p2, storeSet st aid p2)
  else
    (Except.error HsError.validationError, st)

/-- Insert-or-replace one assertion into the background: the first fact on the
same topic has its sentence replaced (last write wins); a new topic is
appended.  Modelled from the spec's merge responsibility: retain facts not
contradicted, replace any fact the new statement contradicts. -/
def upsertFact : BackgroundFacts → String × String → BackgroundFacts
  | [], f => [f]
  | (k, v) :: rest, f =>
      if k = f.1 then (k, f.2) :: rest else (k, v) :: upsertFact rest f

/-- Modelled from the spec: the semantic merge of a statement into a
background, folding each assertion in with last-write-wins replacement. -/
def mergeFacts (b : BackgroundFacts) (s : StatementFacts) : BackgroundFacts :=
  s.foldl upsertFact b

/-- The topics currently present in a background. -/
def topicsOf (b : BackgroundFacts) : List String := b.map Prod.fst

/-- First sentence asserted for a topic, if any. -/
def lookupTopic : BackgroundFacts → String → Option String
  | [], _ => none
  | (k, v) :: rest, key => if k = key then some v else lookupTopic rest key

/-- Last sentence a statement asserts for a topic, if any. -/
def lookupLast : StatementFacts → String → Option String
  | [], _ => none
  | (k, v) :: rest, key =>
      match lookupLast rest key with
      | some w => some w
      | none => if k = key then some v else none

/-- Number of facts in a background that address a given topic. -/
def countTopic (b : BackgroundFacts) (key : String) : Nat :=
  (topicsOf b).count key

/-- Split a character list into space-separated words. -/
def splitOnSpace : List Char → List Char → List String
  | [], acc => [String.mk acc.reverse]
  | c :: rest, acc =>
      if c = ' ' then String.mk acc.reverse :: splitOnSpace rest []
      else splitOnSpace rest (c :: acc)

/-- A word occurs in a sentence (whitespace-token containment). -/
def containsWord (text word : String) : Bool :=
  (splitOnSpace text.data []).contains word

/-- Some sentence of the background mentions the word. -/
def bgMentions (b : BackgroundFacts) (word : String) : Bool :=
  b.any (fun f => containsWord f.2 word)

/-- Clamp a rational into [0,1]. -/
def clamp01 (q : ℚ) : ℚ := max 0 (min 1 q)

/-- A trait value from an optional inferred signal, backfilled by the prior
value when the signal is missing, always forced into [0,1]. -/
def traitFromSignal (sig : Option ℚ) (prior : ℚ) : ℚ :=
  clamp01 (sig.getD prior)

/-- A linguistic signal for a trait: present when any listed keyword occurs in
the background, in which case the trait lands strictly above neutral. -/
def signalFor (b : BackgroundFacts) (keywords : List String) : Option ℚ :=
  if keywords.any (fun w => bgMentions b w) then some (mkRat 4 5) else none

/-- Modelled from the spec: the Personality Inference Engine, a pure mapping
from background text to a 6-vector with each component in [0,1]; any trait
missing from the capability response backfills to the agent's prior value.
Keyword lists follow the spec's linguistic-signal examples. -/
def inferPersonality (b : BackgroundFacts) (prior : Personality) : Personality :=
  ⟨traitFromSignal (signalFor b ["creative", "innovation", "innovative", "risk", "risks"]) prior.openness,
   traitFromSignal (signalFor b ["organized", "methodical", "systematic"]) prior.conscientiousness,
   traitFromSignal (signalFor b ["social", "outgoing", "extraverted"]) prior.extraversion,
   traitFromSignal (signalFor b ["agreeable", "kind", "cooperative"]) prior.agreeableness,
   traitFromSignal (signalFor b ["anxious", "sensitive", "nervous"]) prior.neuroticism,
   traitFromSignal none prior.bias_strength⟩

/-- The result of a background merge: the new background and, only when
personality re-inference was requested, the new personality. -/
structure MergeResult where
  background : BackgroundFacts
  personality : Option Personality
  deriving DecidableEq, Repr

/-- The atomic commit of a validated merged background: stores the background
and, when requested, the re-inferred personality, as one unit. -/
def commitMerge (st : Store) (aid : String) (upd : Bool)
    (newBg : BackgroundFacts) : MergeResult × Store :=
  let p := profileOf st aid
  let newPers := if upd then inferPersonality newBg p.personality else p.personality
  let p2 : Profile := ⟨newPers, newBg⟩
  (⟨newBg, if upd then some newPers else none⟩, storeSet st aid p2)

/-- Modelled from the spec: the Background Merge Engine around an external
reasoning response.  `resp = none` models an unreachable capability; an empty
response is invalid; otherwise the merged background (and, if requested, the
re-inferred personality) are committed atomically.  On failure the store is
left exactly as before the call. -/
def mergeBackgroundWith (st : Store) (aid : String) (upd : Bool)
    (resp : Option BackgroundFacts) : Except HsError MergeResult × Store :=
  match resp with
  | none => (Except.error HsError.externalServiceError, st)
  | some newBg =>
      if newBg = [] then (Except.error HsError.externalServiceError, st)
      else
        let c := commitMerge st aid upd newBg
        (Except.ok c.1, c.2)

/-- Modelled from the spec: `merge_background` on the successful path, where
the reasoning capability returns the semantic merge of the current background
with the statement. -/
def mergeBackground (st : Store) (aid : String) (s : StatementFacts)
    (upd : Bool) : Except HsError MergeResult × Store :=
  mergeBackgroundWith st aid upd (some (mergeFacts (profileOf st aid).background s))

/-- The stores reachable from an empty system by the modelled operations
(lazy profile creation, personality update, background merge with an
arbitrary external response). -/
inductive Reach : Store → Prop where
  | empty : Reach []
  | getP (st : Store) (aid : String) : Reach st → Reach (getProfile st aid).2
  | updP (st : Store) (aid : String) (t : TraitUpdate) :
      Reach st → Reach (updatePersonality st aid t).2
  | mergeW (st : Store) (aid : String) (u : Bool) (resp : Option BackgroundFacts) :
      Reach st → Reach (mergeBackgroundWith st aid u resp).2

/-- Modelled from the spec: an immutable memory fact with temporal metadata,
its original insertion index, its composite ranking score, and its text. -/
structure MemoryFact where
  text : String
  ftype : String
  context : String
  occurred_end : Option Int
  idx : Nat
  score : ℚ
  deriving DecidableEq, Repr

/-- Modelled from the spec: the token-cost estimate of one serialized fact. -/
def tokenCost (f : MemoryFact) : Nat := f.text.length / 4 + 1

/-- Serialized size estimate of a recall result. -/
def totalCost (l : List MemoryFact) : Nat := (l.map tokenCost).sum

/-- `a` is strictly more recent than `b` (a missing temporal range counts as
least recent). -/
def occAfter : Option Int → Option Int → Bool
  | some t1, some t2 => decide (t2 < t1)
  | some _, none => true
  | none, _ => false

/-- Ranking order: higher composite score first; ties break by most-recent
occurred_end, then by original insertion order. -/
def rankLE (a b : MemoryFact) : Bool :=
  if a.score = b.score then
    if a.occurred_end = b.occurred_end then decide (a.idx ≤ b.idx)
    else occAfter a.occurred_end b.occurred_end
  else decide (b.score < a.score)

def insertRanked (f : MemoryFact) : List MemoryFact → List MemoryFact
  | [] => [f]
  | g :: rest => if rankLE f g then f :: g :: rest else g :: insertRanked f rest

/-- Modelled from the spec: rank candidate facts by composite score with the
deterministic tie-break. -/
def rankFacts : List MemoryFact → List MemoryFact
  | [] => []
  | f :: rest => insertRanked f (rankFacts rest)

/-- Modelled from the spec: append ranked facts while accumulating the token
cost, stopping before the first fact whose inclusion would exceed the budget;
a fact is atomic, never partially included. -/
def truncateAcc : List MemoryFact → Nat → Nat → List MemoryFact
  | [], _, _ => []
  | f :: rest, budget, used =>
      if used + tokenCost f ≤ budget then
        f :: truncateAcc rest budget (used + tokenCost f)
      else []

/-- Modelled from the spec: the Recall Engine's ranking-and-truncation of a
candidate fact set under an explicit max_tokens ceiling. -/
def recallFacts (facts : List MemoryFact) (maxTokens : Nat) : List MemoryFact :=
  truncateAcc (rankFacts facts) maxTokens 0

/-! Configuration loading, embedded from
`hindsight-embed/hindsight_embed/cli.py` (`load_config_file`, `get_config`). -/

/-- The process environment, as an ordered key-value list (first match wins,
matching dict lookup since keys are unique by construction). -/
abbrev EnvMap := List (String × String)

def envGet : EnvMap → String → Option String
  | [], _ => none
  | (k, v) :: rest, key => if k = key then some v else envGet rest key

/-- An ASCII whitespace character, as stripped by Python's `str.strip()`. -/
def isSpaceChar (c : Char) : Bool :=
  c = ' ' || c = '\t' || c = '\n' || c = '\r' || c = '\x0b' || c = '\x0c'

def dropSpaces : List Char → List Char
  | [] => []
  | c :: rest => if isSpaceChar c then dropSpaces rest else c :: rest

/-- Python's `line.strip()`: whitespace removed from both ends. -/
def pyStrip (s : String) : String :=
  String.mk ((dropSpaces ((dropSpaces s.data).reverse)).reverse)

def leadsWith : List Char → List Char → Bool
  | [], _ => true
  | _ :: _, [] => false
  | p :: ps, c :: cs => p = c && leadsWith ps cs

/-- Python's `s.startswith(p)`. -/
def pyStartsWith (s p : String) : Bool := leadsWith p.data s.data

/-- Split a character list at the first '=': the key before it and everything
after it, or `none` when the list has no '='. -/
def splitAtEq : List Char → Option (List Char × List Char)
  | [] => none
  | c :: rest =>
      if c = '=' then some ([], rest)
      else
        match splitAtEq rest with
        | none => none
        | some (k, v) => some (c :: k, v)

/-- `load_config_file`'s per-line guard: a stripped line is processed when it
is non-empty, is not a comment, and contains "=". -/
def lineGuard (line : String) : Bool :=
  line ≠ "" && !pyStartsWith line "#" && (splitAtEq line.data).isSome

/-- The line with a leading "export " removed. -/
def lineBody (line : String) : String :=
  if pyStartsWith line "export " then String.mk (line.data.drop 7) else line

/-- The key of `line.split("=", 1)`. -/
def lineKey (line : String) : String :=
  match splitAtEq (lineBody line).data with
  | some (k, _) => String.mk k
  | none => ""

/-- The value of `line.split("=", 1)` (everything after the first "="). -/
def lineValue (line : String) : String :=
  match splitAtEq (lineBody line).data with
  | some (_, v) => String.mk v
  | none => ""

/-- One line of the config file, as processed by `load_config_file`: strip,
skip comments/blanks/lines without "=", drop an "export " prefix, split at
the first "=", and set the key only when it is not already in the
environment. -/
def processLine (env : EnvMap) (rawLine : String) : EnvMap :=
  if lineGuard (pyStrip rawLine) then
    match envGet env (lineKey (pyStrip rawLine)) with
    | some _ => env
    | none => env ++ [(lineKey (pyStrip rawLine), lineValue (pyStrip rawLine))]
  else env

/-- `load_config_file`: fold the config file's lines into the environment
(`none` models a missing config file). -/
def loadConfigFile (env : EnvMap) (file : Option (List String)) : EnvMap :=
  match file with
  | none => env
  | some lines => lines.foldl processLine env

/-- The structured configuration `get_config` returns. -/
structure EmbedConfig where
  llm_api_key : Option String
  llm_provider : String
  llm_model : String
  bank_id : String
  deriving DecidableEq, Repr

/-- Python's `x or y` on an optional string: an unset or empty value is
falsy and falls through to `y`. -/
def pyOr (a b : Option String) : Option String :=
  match a with
  | some s => if s = "" then b else some s
  | none => b

/-- Python's `x or y` where `y` is already a plain string. -/
def pyOrStr (a : Option String) (y : String) : String :=
  match a with
  | some s => if s = "" then y else s
  | none => y

/-- `get_config`: load the config file into the environment, then read each
field with its fallback chain and built-in default. -/
def getConfig (env : EnvMap) (file : Option (List String)) : EmbedConfig :=
  let e := loadConfigFile env file
  { llm_api_key :=
      pyOr (envGet e "HINDSIGHT_EMBED_LLM_API_KEY")
        (pyOr (envGet e "HINDSIGHT_API_LLM_API_KEY") (envGet e "OPENAI_API_KEY")),
    llm_provider :=
      pyOrStr (envGet e "HINDSIGHT_EMBED_LLM_PROVIDER")
        ((envGet e "HINDSIGHT_API_LLM_PROVIDER").getD "openai"),
    llm_model :=
      pyOrStr (envGet e "HINDSIGHT_EMBED_LLM_MODEL")
        ((envGet e "HINDSIGHT_API_LLM_MODEL").getD "gpt-4o-mini"),
    bank_id := (envGet e "HINDSIGHT_EMBED_BANK_ID").getD "default" }

/-! Recall CLI output, embedded from `do_recall` in
`hindsight-embed/hindsight_embed/cli.py`. -/

/-- A JSON value as far as the recall output needs one. -/
inductive JVal where
  | null
  | str (s : String)
  | num (n : Nat)
  | arr (xs : List String)
  deriving DecidableEq, Repr

/-- A fact dictionary as returned by the daemon: any field may be absent. -/
structure DaemonFact where
  text : Option String := none
  ftype : Option String := none
  occurred_start : Option String := none
  occurred_end : Option String := none
  entities : Option (List String) := none
  context : Option String := none
  deriving DecidableEq, Repr

/-- `fact.get(k)` for a string field: absent becomes JSON null. -/
def jStr : Option String → JVal
  | some s => JVal.str s
  | none => JVal.null

/-- One result item of `do_recall`'s output: the six fixed keys, with
`entities` defaulting to the empty list when the daemon omits it. -/
def recallItem (f : DaemonFact) : List (String × JVal) :=
  [("text", jStr f.text),
   ("type", jStr f.ftype),
   ("occurred_start", jStr f.occurred_start),
   ("occurred_end", jStr f.occurred_end),
   ("entities", JVal.arr (f.entities.getD [])),
   ("context", jStr f.context)]

/-- The top-level JSON object `do_recall` prints: query, results, total. -/
structure RecallOutput where
  query : String
  results : List (List (String × JVal))
  total : Nat
  deriving DecidableEq, Repr

/-- `do_recall`'s output construction from the daemon's result list. -/
def doRecallOutput (query : String) (daemonResults : List DaemonFact) : RecallOutput :=
  ⟨query, daemonResults.map recallItem, daemonResults.length⟩

/-- Lookup of a key in a JSON object rendered as a key-value list. -/
def jLookup (item : List (String × JVal)) (key : String) : Option JVal :=
  (item.find? (fun e => e.1 = key)).map Prod.snd

/-- The personality a subsequent `get_profile` observes for an agent. -/
def observedPersonality (st : Store) (aid : String) : Personality :=
  ((getProfile st aid).1).personality

/-- The two concrete statements of the conflict-resolution scenario. -/
def coloradoStatement : StatementFacts := [("birthplace", "I was born in Colorado")]

def texasStatement : StatementFacts := [("birthplace", "You were born in Texas")]

/-- A concrete memory fact used to instantiate the recall theorem. -/
def demoFact : MemoryFact :=
  ⟨"Modern digital art is changing the art world", "world_fact", "general",
   some 5, 0, mkRat 1 2⟩

/-! ### Helper lemmas -/

theorem storeGet_storeSet (st : Store) (aid aid2 : String) (p : Profile) :
    storeGet (storeSet st aid p) aid2 =
      if aid2 = aid then some p else storeGet st aid2 := by
  induction st with
  | nil =>
      by_cases h : aid2 = aid
      · subst h; simp [storeSet, storeGet]
      · have h2 : ¬ aid = aid2 := fun e => h e.symm
        simp [storeSet, storeGet, h, h2]
  | cons e rest ih =>
      obtain ⟨a, q⟩ := e
      by_cases ha : a = aid
      · subst ha
        by_cases h2 : aid2 = a
        · subst h2; simp [storeSet, storeGet]
        · have h3 : ¬ a = aid2 := fun e => h2 e.symm
          simp [storeSet, storeGet, h2, h3]
      · by_cases h2 : a = aid2
        · subst h2
          simp [storeSet, storeGet, ha]
        · simp [storeSet, storeGet, ha, h2, ih]

theorem storeGet_storeSet_self (st : Store) (aid : String) (p : Profile) :
    storeGet (storeSet st aid p) aid = some p := by
  simp [storeGet_storeSet]

theorem storeGet_storeSet_other (st : Store) (aid aid2 : String) (p : Profile)
    (h : aid2 ≠ aid) : storeGet (storeSet st aid p) aid2 = storeGet st aid2 := by
  simp [storeGet_storeSet, h]

theorem lookupTopic_upsert_self (b : BackgroundFacts) (k v : String) :
    lookupTopic (upsertFact b (k, v)) k = some v := by
  induction b with
  | nil => simp [upsertFact, lookupTopic]
  | cons f rest ih =>
      obtain ⟨k1, w⟩ := f
      by_cases h : k1 = k
      · subst h; simp [upsertFact, lookupTopic]
      · simp [upsertFact, lookupTopic, h, ih]

theorem lookupTopic_upsert_other (b : BackgroundFacts) (k v key : String)
    (h : key ≠ k) : lookupTopic (upsertFact b (k, v)) key = lookupTopic b key := by
  have h0 : ¬ k = key := fun e => h e.symm
  induction b with
  | nil => simp [upsertFact, lookupTopic, h0]
  | cons f rest ih =>
      obtain ⟨k1, w⟩ := f
      by_cases h1 : k1 = k
      · subst h1
        simp [upsertFact, lookupTopic, h0]
      · by_cases h2 : k1 = key
        · subst h2; simp [upsertFact, lookupTopic, h1]
        · simp [upsertFact, lookupTopic, h1, h2, ih]

theorem topicsOf_upsert (b : BackgroundFacts) (k v : String) :
    topicsOf (upsertFact b (k, v)) =
      if k ∈ topicsOf b then topicsOf b else topicsOf b ++ [k] := by
  induction b with
  | nil => simp [upsertFact, topicsOf]
  | cons f rest ih =>
      obtain ⟨k1, w⟩ := f
      by_cases h : k1 = k
      · subst h; simp [upsertFact, topicsOf]
      · have h2 : ¬ k = k1 := fun e => h e.symm
        have hL : topicsOf (upsertFact ((k1, w) :: rest) (k, v)) =
            k1 :: topicsOf (upsertFact rest (k, v)) := by
          simp [upsertFact, h, topicsOf]
        have hcons : topicsOf ((k1, w) :: rest) = k1 :: topicsOf rest := by
          simp [topicsOf]
        rw [hL, ih, hcons]
        by_cases hm : k ∈ topicsOf rest
        · rw [if_pos hm, if_pos (List.mem_cons_of_mem _ hm)]
        · have hnotin : k ∉ k1 :: topicsOf rest := by
            intro hc
            rcases List.mem_cons.mp hc with he | hmm
            · exact h2 he
            · exact hm hmm
          rw [if_neg hm, if_neg hnotin, List.cons_append]

theorem lookupTopic_notMem (b : BackgroundFacts) (key : String)
    (h : key ∉ topicsOf b) : lookupTopic b key = none := by
  induction b with
  | nil => simp [lookupTopic]
  | cons f rest ih =>
      obtain ⟨k1, w⟩ := f
      simp [topicsOf] at h
      push_neg at h
      have h1 : ¬ k1 = key := fun e => h.1 e.symm
      simp [lookupTopic, h1]
      exact ih (by simp [topicsOf]; exact fun e => h.2 e)

theorem mem_topics_of_lookup (b : BackgroundFacts) (key w : String)
    (h : lookupTopic b key = some w) : key ∈ topicsOf b := by
  induction b with
  | nil => simp [lookupTopic] at h
  | cons f rest ih =>
      obtain ⟨k1, v1⟩ := f
      by_cases h1 : k1 = key
      · subst h1; simp [topicsOf]
      · simp [lookupTopic, h1] at h
        simp [topicsOf]
        exact Or.inr (by simpa [topicsOf] using ih h)

/-- Two backgrounds with duplicate-free topics, the same topic order and the
same per-topic sentences are equal. -/
theorem background_ext (b1 b2 : BackgroundFacts)
    (hnd : (topicsOf b1).Nodup)
    (ht : topicsOf b1 = topicsOf b2)
    (hl : ∀ k, lookupTopic b1 k = lookupTopic b2 k) : b1 = b2 := by
  induction b1 generalizing b2 with
  | nil =>
      cases b2 with
      | nil => rfl
      | cons f rest => simp [topicsOf] at ht
  | cons f rest ih =>
      obtain ⟨k1, v1⟩ := f
      cases b2 with
      | nil => simp [topicsOf] at ht
      | cons g rest2 =>
          obtain ⟨k2, v2⟩ := g
          simp [topicsOf] at ht
          obtain ⟨hk, htl⟩ := ht
          subst hk
          have hv : v1 = v2 := by
            have := hl k1
            simpa [lookupTopic] using this
          subst hv
          have hnd2 : (k1 :: topicsOf rest).Nodup := by simpa [topicsOf] using hnd
          obtain ⟨hn1, hn2⟩ := List.nodup_cons.mp hnd2
          refine congrArg _ (ih rest2 hn2 htl ?_)
          intro k
          by_cases hk2 : k1 = k
          · subst hk2
            have hnotin2 : k1 ∉ topicsOf rest2 := by
              have hx : k1 ∉ List.map Prod.fst rest2 := by
                rw [← htl]
                simpa [topicsOf] using hn1
              simpa [topicsOf] using hx
            rw [lookupTopic_notMem rest k1 hn1, lookupTopic_notMem rest2 k1 hnotin2]
          · have := hl k
            simpa [lookupTopic, hk2] using this

theorem lookupTopic_mergeFacts (b : BackgroundFacts) (s : StatementFacts) (key : String) :
    lookupTopic (mergeFacts b s) key =
      match lookupLast s key with
      | some w => some w
      | none => lookupTopic b key := by
  induction s generalizing b with
  | nil => simp [mergeFacts, lookupLast]
  | cons f rest ih =>
      obtain ⟨k1, v1⟩ := f
      have hstep : mergeFacts b ((k1, v1) :: rest) = mergeFacts (upsertFact b (k1, v1)) rest := rfl
      rw [hstep, ih]
      cases hr : lookupLast rest key with
      | some w => simp [lookupLast, hr]
      | none =>
          by_cases hk : k1 = key
          · subst hk
            simp [lookupLast, hr, lookupTopic_upsert_self]
          · have hk2 : key ≠ k1 := fun e => hk e.symm
            simp [lookupLast, hr, hk, lookupTopic_upsert_other b k1 v1 key hk2]

theorem topicsOf_mergeFacts_fixed (b : BackgroundFacts) (s : StatementFacts)
    (h : ∀ f ∈ s, f.1 ∈ topicsOf b) : topicsOf (mergeFacts b s) = topicsOf b := by
  induction s generalizing b with
  | nil => simp [mergeFacts]
  | cons f rest ih =>
      obtain ⟨k1, v1⟩ := f
      have hstep : mergeFacts b ((k1, v1) :: rest) = mergeFacts (upsertFact b (k1, v1)) rest := rfl
      have hmem : k1 ∈ topicsOf b := h (k1, v1) (by simp)
      have hup : topicsOf (upsertFact b (k1, v1)) = topicsOf b := by
        simp [topicsOf_upsert, hmem]
      rw [hstep, ih (upsertFact b (k1, v1)) (by intro f hf; rw [hup]; exact h f (by simp [hf])), hup]

theorem nodup_topics_upsert (b : BackgroundFacts) (k v : String)
    (h : (topicsOf b).Nodup) : (topicsOf (upsertFact b (k, v))).Nodup := by
  rw [topicsOf_upsert]
  by_cases hm : k ∈ topicsOf b
  · simpa [hm] using h
  · simp [hm, List.nodup_append, h]

theorem nodup_topics_mergeFacts (b : BackgroundFacts) (s : StatementFacts)
    (h : (topicsOf b).Nodup) : (topicsOf (mergeFacts b s)).Nodup := by
  induction s generalizing b with
  | nil => simpa [mergeFacts]
  | cons f rest ih =>
      obtain ⟨k1, v1⟩ := f
      exact ih (upsertFact b (k1, v1)) (nodup_topics_upsert b k1 v1 h)

theorem lookupLast_of_mem (s : StatementFacts) (k v : String) (h : (k, v) ∈ s) :
    ∃ w, lookupLast s k = some w := by
  induction s with
  | nil => simp at h
  | cons f rest ih =>
      obtain ⟨k1, v1⟩ := f
      cases hr : lookupLast rest k with
      | some w => exact ⟨w, by simp [lookupLast, hr]⟩
      | none =>
          rcases List.mem_cons.mp h with heq | hmem
          · have hk : k1 = k := by cases heq; rfl
            exact ⟨v1, by simp [lookupLast, hr, hk]⟩
          · obtain ⟨w, hw⟩ := ih hmem
            rw [hw] at hr
            cases hr

theorem mem_topics_mergeFacts (b : BackgroundFacts) (s : StatementFacts)
    (k v : String) (h : (k, v) ∈ s) : k ∈ topicsOf (mergeFacts b s) := by
  obtain ⟨w, hw⟩ := lookupLast_of_mem s k v h
  have := lookupTopic_mergeFacts b s k
  rw [hw] at this
  exact mem_topics_of_lookup _ _ _ this

/-- Core idempotence: re-merging a statement into an already-merged background
is the identity. -/
theorem mergeFacts_idem (b : BackgroundFacts) (s : StatementFacts)
    (hnd : (topicsOf b).Nodup) :
    mergeFacts (mergeFacts b s) s = mergeFacts b s := by
  have hmem : ∀ f ∈ s, f.1 ∈ topicsOf (mergeFacts b s) := by
    intro f hf
    exact mem_topics_mergeFacts b s f.1 f.2 (by simpa using hf)
  refine background_ext _ _ ?_ ?_ ?_
  · exact nodup_topics_mergeFacts _ s (nodup_topics_mergeFacts b s hnd)
  · exact topicsOf_mergeFacts_fixed _ s hmem
  · intro k
    rw [lookupTopic_mergeFacts, lookupTopic_mergeFacts]
    cases hr : lookupLast s k <;> simp [hr]

theorem upsertFact_ne_nil (b : BackgroundFacts) (f : String × String) :
    upsertFact b f ≠ [] := by
  cases b with
  | nil => simp [upsertFact]
  | cons g rest =>
      obtain ⟨k1, v1⟩ := g
      by_cases h : k1 = f.1 <;> simp [upsertFact, h]

theorem mergeFacts_ne_nil_of_bg (b : BackgroundFacts) (s : StatementFacts)
    (h : b ≠ []) : mergeFacts b s ≠ [] := by
  induction s generalizing b with
  | nil => simpa [mergeFacts]
  | cons f rest ih =>
      exact ih (upsertFact b f) (upsertFact_ne_nil b f)

theorem mergeFacts_ne_nil (b : BackgroundFacts) (s : StatementFacts)
    (h : s ≠ []) : mergeFacts b s ≠ [] := by
  cases s with
  | nil => simp at h
  | cons f rest =>
      have hstep : mergeFacts b (f :: rest) = mergeFacts (upsertFact b f) rest := rfl
      rw [hstep]
      exact mergeFacts_ne_nil_of_bg _ rest (upsertFact_ne_nil b f)

theorem mem_upsert_self (b : BackgroundFacts) (k v : String) :
    (k, v) ∈ upsertFact b (k, v) := by
  induction b with
  | nil => simp [upsertFact]
  | cons g rest ih =>
      obtain ⟨k1, v1⟩ := g
      by_cases h : k1 = k
      · subst h; simp [upsertFact]
      · simp [upsertFact, h]
        exact Or.inr ih

theorem mem_upsert (b : BackgroundFacts) (k v : String) (f : String × String)
    (hnd : (topicsOf b).Nodup) (h : f ∈ upsertFact b (k, v)) :
    (f ∈ b ∧ f.1 ≠ k) ∨ f = (k, v) := by
  induction b with
  | nil =>
      simp [upsertFact] at h
      exact Or.inr h
  | cons g rest ih =>
      obtain ⟨k1, v1⟩ := g
      have hnd2 : (k1 :: topicsOf rest).Nodup := by simpa [topicsOf] using hnd
      obtain ⟨hn1, hn2⟩ := List.nodup_cons.mp hnd2
      by_cases hk : k1 = k
      · subst hk
        have hup : upsertFact ((k1, v1) :: rest) (k1, v) = (k1, v) :: rest := by
          simp [upsertFact]
        rw [hup] at h
        rcases List.mem_cons.mp h with heq | hmem
        · exact Or.inr heq
        · refine Or.inl ⟨List.mem_cons_of_mem _ hmem, ?_⟩
          intro he
          apply hn1
          have hx : f.1 ∈ List.map Prod.fst rest := List.mem_map_of_mem Prod.fst hmem
          rw [he] at hx
          simpa [topicsOf] using hx
      · have hup : upsertFact ((k1, v1) :: rest) (k, v) =
            (k1, v1) :: upsertFact rest (k, v) := by
          simp [upsertFact, hk]
        rw [hup] at h
        rcases List.mem_cons.mp h with heq | hmem
        · subst heq
          exact Or.inl ⟨List.mem_cons_self _ _, hk⟩
        · rcases ih hn2 hmem with ⟨hm, hne⟩ | he
          · exact Or.inl ⟨List.mem_cons_of_mem _ hm, hne⟩
          · exact Or.inr he

theorem profileOf_storeSet_self (st : Store) (aid : String) (p : Profile) :
    profileOf (storeSet st aid p) aid = p := by
  simp [profileOf, storeGet_storeSet_self]

/-- The successful path of the merge engine, spelled out. -/
theorem mergeBackground_success (st : Store) (aid : String) (s : StatementFacts)
    (u : Bool) (h : mergeFacts (profileOf st aid).background s ≠ []) :
    mergeBackground st aid s u =
      (Except.ok
        ⟨mergeFacts (profileOf st aid).background s,
         if u then
           some (inferPersonality (mergeFacts (profileOf st aid).background s)
             (profileOf st aid).personality)
         else none⟩,
       storeSet st aid
         ⟨(if u then
             inferPersonality (mergeFacts (profileOf st aid).background s)
               (profileOf st aid).personality
           else (profileOf st aid).personality),
          mergeFacts (profileOf st aid).background s⟩) := by
  simp [mergeBackground, mergeBackgroundWith, commitMerge, h]
  split_ifs <;> rfl

theorem envGet_append_left (env l : EnvMap) (k v : String)
    (h : envGet env k = some v) : envGet (env ++ l) k = some v := by
  induction env with
  | nil => simp [envGet] at h
  | cons e rest ih =>
      obtain ⟨k1, v1⟩ := e
      by_cases hk : k1 = k
      · subst hk
        simpa [envGet] using h
      · rw [List.cons_append]
        simp [envGet, hk] at h ⊢
        exact ih h

/-- `processLine` either leaves the environment unchanged or appends a single
binding for a key that was absent. -/
theorem processLine_cases (env : EnvMap) (line : String) :
    processLine env line = env ∨
    ∃ k v, envGet env k = none ∧ processLine env line = env ++ [(k, v)] := by
  unfold processLine
  split
  · split
    · exact Or.inl rfl
    · next heq => exact Or.inr ⟨_, _, heq, rfl⟩
  · exact Or.inl rfl

theorem processLine_keeps (env : EnvMap) (line k v : String)
    (h : envGet env k = some v) : envGet (processLine env line) k = some v := by
  rcases processLine_cases env line with he | ⟨k2, v2, _, he⟩ <;> rw [he]
  · exact h
  · exact envGet_append_left env _ k v h

theorem loadConfigFile_keeps (env : EnvMap) (file : Option (List String))
    (k v : String) (h : envGet env k = some v) :
    envGet (loadConfigFile env file) k = some v := by
  cases file with
  | none => simpa [loadConfigFile] using h
  | some lines =>
      unfold loadConfigFile
      induction lines generalizing env with
      | nil => simpa using h
      | cons l rest ih => exact ih (processLine env l) (processLine_keeps env l k v h)

theorem envGet_append_absent (env : EnvMap) (k v : String)
    (h : envGet env k = none) : envGet (env ++ [(k, v)]) k = some v := by
  induction env with
  | nil => simp [envGet]
  | cons e rest ih =>
      obtain ⟨k1, v1⟩ := e
      by_cases hk : k1 = k
      · subst hk
        simp [envGet] at h
      · simp [envGet, hk] at h ⊢
        exact ih h

/-- A guarded config-file line whose key is absent from the environment
appends exactly that key-value binding. -/
theorem processLine_sets (env : EnvMap) (line : String)
    (hg : lineGuard (pyStrip line) = true)
    (habs : envGet env (lineKey (pyStrip line)) = none) :
    processLine env line =
      env ++ [(lineKey (pyStrip line), lineValue (pyStrip line))] := by
  unfold processLine
  rw [if_pos hg, habs]

/-- Loading a one-line config file populates an absent key with the parsed
value of that line. -/
theorem loadConfigFile_sets_single (env : EnvMap) (line : String)
    (hg : lineGuard (pyStrip line) = true)
    (habs : envGet env (lineKey (pyStrip line)) = none) :
    envGet (loadConfigFile env (some [line])) (lineKey (pyStrip line)) =
      some (lineValue (pyStrip line)) := by
  show envGet (List.foldl processLine env [line]) _ = _
  simp only [List.foldl]
  rw [processLine_sets env line hg habs]
  exact envGet_append_absent env _ _ habs

theorem occAfter_total (x y : Option Int) (h : x ≠ y) :
    occAfter x y = true ∨ occAfter y x = true := by
  cases x with
  | none =>
      cases y with
      | none => exact absurd rfl h
      | some t => right; simp [occAfter]
  | some t1 =>
      cases y with
      | none => left; simp [occAfter]
      | some t2 =>
          have ht : t1 ≠ t2 := by
            intro e
            exact h (by rw [e])
          rcases lt_or_gt_of_ne ht with hl | hl
          · right; simpa [occAfter] using hl
          · left; simpa [occAfter] using hl

theorem occAfter_trans (x y z : Option Int) (h1 : occAfter x y = true)
    (h2 : occAfter y z = true) : occAfter x z = true := by
  cases x <;> cases y <;> cases z <;> simp_all [occAfter] <;> omega

theorem occAfter_asymm (x y : Option Int) (h1 : occAfter x y = true)
    (h2 : occAfter y x = true) : False := by
  cases x <;> cases y <;> simp_all [occAfter] <;> omega

theorem rankLE_total (a b : MemoryFact) : rankLE a b = true ∨ rankLE b a = true := by
  unfold rankLE
  by_cases hs : a.score = b.score
  · rw [if_pos hs, if_pos hs.symm]
    by_cases ho : a.occurred_end = b.occurred_end
    · rw [if_pos ho, if_pos ho.symm]
      rcases Nat.le_total a.idx b.idx with h | h
      · left; exact decide_eq_true h
      · right; exact decide_eq_true h
    · rw [if_neg ho, if_neg (fun e => ho e.symm)]
      exact occAfter_total _ _ ho
  · rw [if_neg hs, if_neg (fun e => hs e.symm)]
    rcases lt_or_gt_of_ne hs with h | h
    · right; exact decide_eq_true h
    · left; exact decide_eq_true h

theorem rankLE_trans (a b c : MemoryFact) (h1 : rankLE a b = true)
    (h2 : rankLE b c = true) : rankLE a c = true := by
  unfold rankLE at h1 h2 ⊢
  by_cases hab : a.score = b.score <;> by_cases hbc : b.score = c.score
  · rw [if_pos hab] at h1
    rw [if_pos hbc] at h2
    rw [if_pos (hab.trans hbc)]
    by_cases hoab : a.occurred_end = b.occurred_end <;>
      by_cases hobc : b.occurred_end = c.occurred_end
    · rw [if_pos hoab] at h1
      rw [if_pos hobc] at h2
      rw [if_pos (hoab.trans hobc)]
      exact decide_eq_true (le_trans (of_decide_eq_true h1) (of_decide_eq_true h2))
    · rw [if_pos hoab] at h1
      rw [if_neg hobc] at h2
      rw [if_neg (fun e => hobc (hoab.symm.trans e)), hoab]
      exact h2
    · rw [if_neg hoab] at h1
      rw [if_pos hobc] at h2
      rw [if_neg (fun e => hoab (e.trans hobc.symm)), ← hobc]
      exact h1
    · rw [if_neg hoab] at h1
      rw [if_neg hobc] at h2
      have hne : a.occurred_end ≠ c.occurred_end := by
        intro e
        have h2a : occAfter b.occurred_end a.occurred_end = true := by
          rw [e]; exact h2
        exact occAfter_asymm _ _ h1 h2a
      rw [if_neg hne]
      exact occAfter_trans _ _ _ h1 h2
  · rw [if_neg hbc] at h2
    have p : c.score < a.score := hab ▸ of_decide_eq_true h2
    rw [if_neg (ne_of_gt p)]
    exact decide_eq_true p
  · rw [if_neg hab] at h1
    have p : c.score < a.score := hbc ▸ of_decide_eq_true h1
    rw [if_neg (ne_of_gt p)]
    exact decide_eq_true p
  · rw [if_neg hab] at h1
    rw [if_neg hbc] at h2
    have p : c.score < a.score := lt_trans (of_decide_eq_true h2) (of_decide_eq_true h1)
    rw [if_neg (ne_of_gt p)]
    exact decide_eq_true p

theorem mem_insertRanked (f : MemoryFact) (l : List MemoryFact) (x : MemoryFact)
    (h : x ∈ insertRanked f l) : x = f ∨ x ∈ l := by
  induction l with
  | nil =>
      simp [insertRanked] at h
      exact Or.inl h
  | cons g rest ih =>
      unfold insertRanked at h
      by_cases hr : rankLE f g = true
      · rw [if_pos hr] at h
        rcases List.mem_cons.mp h with he | hm
        · exact Or.inl he
        · exact Or.inr hm
      · rw [if_neg hr] at h
        rcases List.mem_cons.mp h with he | hm
        · exact Or.inr (by simp [he])
        · rcases ih hm with he | hm2
          · exact Or.inl he
          · exact Or.inr (List.mem_cons_of_mem _ hm2)

theorem pairwise_insertRanked (f : MemoryFact) (l : List MemoryFact)
    (h : l.Pairwise (fun a b => rankLE a b = true)) :
    (insertRanked f l).Pairwise (fun a b => rankLE a b = true) := by
  induction l with
  | nil => simp [insertRanked]
  | cons g rest ih =>
      rcases List.pairwise_cons.mp h with ⟨hg, hrest⟩
      unfold insertRanked
      by_cases hr : rankLE f g = true
      · rw [if_pos hr]
        refine List.pairwise_cons.mpr ⟨?_, h⟩
        intro x hx
        rcases List.mem_cons.mp hx with he | hm
        · subst he
          exact hr
        · exact rankLE_trans f g x hr (hg x hm)
      · rw [if_neg hr]
        refine List.pairwise_cons.mpr ⟨?_, ih hrest⟩
        intro x hx
        rcases mem_insertRanked f rest x hx with he | hm
        · rw [he]
          rcases rankLE_total f g with h1 | h1
          · exact absurd h1 hr
          · exact h1
        · exact hg x hm

theorem perm_insertRanked (f : MemoryFact) (l : List MemoryFact) :
    (insertRanked f l).Perm (f :: l) := by
  induction l with
  | nil => simp [insertRanked]
  | cons g rest ih =>
      unfold insertRanked
      by_cases hr : rankLE f g = true
      · rw [if_pos hr]
      · rw [if_neg hr]
        exact (List.Perm.cons g ih).trans (List.Perm.swap f g rest)

theorem rankFacts_sorted (l : List MemoryFact) :
    (rankFacts l).Pairwise (fun a b => rankLE a b = true) := by
  induction l with
  | nil => simp [rankFacts]
  | cons f rest ih => exact pairwise_insertRanked f (rankFacts rest) ih

theorem rankFacts_perm (l : List MemoryFact) : (rankFacts l).Perm l := by
  induction l with
  | nil => simp [rankFacts]
  | cons f rest ih =>
      exact (perm_insertRanked f (rankFacts rest)).trans (List.Perm.cons f ih)

theorem totalCost_cons (f : MemoryFact) (l : List MemoryFact) :
    totalCost (f :: l) = tokenCost f + totalCost l := by
  simp [totalCost]

theorem truncateAcc_le (l : List MemoryFact) (budget used : Nat) (h : used ≤ budget) :
    used + totalCost (truncateAcc l budget used) ≤ budget := by
  induction l generalizing used with
  | nil => simpa [truncateAcc, totalCost]
  | cons f rest ih =>
      by_cases hc : used + tokenCost f ≤ budget
      · have hu : truncateAcc (f :: rest) budget used =
            f :: truncateAcc rest budget (used + tokenCost f) := by
          simp [truncateAcc, hc]
        rw [hu, totalCost_cons]
        have := ih (used + tokenCost f) hc
        omega
      · have hu : truncateAcc (f :: rest) budget used = [] := by
          simp [truncateAcc, hc]
        rw [hu]
        simpa [totalCost]

theorem truncateAcc_prefix (l : List MemoryFact) (budget used : Nat) :
    ∃ t, l = truncateAcc l budget used ++ t := by
  induction l generalizing used with
  | nil => exact ⟨[], rfl⟩
  | cons f rest ih =>
      by_cases hc : used + tokenCost f ≤ budget
      · obtain ⟨t, ht⟩ := ih (used + tokenCost f)
        refine ⟨t, ?_⟩
        have hu : truncateAcc (f :: rest) budget used =
            f :: truncateAcc rest budget (used + tokenCost f) := by
          simp [truncateAcc, hc]
        rw [hu, List.cons_append, ← ht]
      · refine ⟨f :: rest, ?_⟩
        have hu : truncateAcc (f :: rest) budget used = [] := by
          simp [truncateAcc, hc]
        rw [hu, List.nil_append]

theorem truncateAcc_maximal (l : List MemoryFact) (budget used : Nat) :
    ∀ f t, l = truncateAcc l budget used ++ f :: t →
      budget < used + totalCost (truncateAcc l budget used) + tokenCost f := by
  induction l generalizing used with
  | nil =>
      intro f t h
      simp [truncateAcc] at h
  | cons g rest ih =>
      intro f t h
      by_cases hc : used + tokenCost g ≤ budget
      · have hu : truncateAcc (g :: rest) budget used =
            g :: truncateAcc rest budget (used + tokenCost g) := by
          simp [truncateAcc, hc]
        rw [hu] at h ⊢
        rw [List.cons_append] at h
        have h2 : rest = truncateAcc rest budget (used + tokenCost g) ++ f :: t :=
          (List.cons.injEq _ _ _ _).mp h |>.2
        have := ih (used + tokenCost g) f t h2
        rw [totalCost_cons]
        omega
      · have hu : truncateAcc (g :: rest) budget used = [] := by
          simp [truncateAcc, hc]
        rw [hu] at h ⊢
        rw [List.nil_append] at h
        have hf : g = f := ((List.cons.injEq _ _ _ _).mp h).1
        rw [← hf]
        simp [totalCost]
        omega

/-! ### Claim theorems -/

/-- C6: for every non-empty agent_id with no existing profile, `get_profile`
succeeds and creates a profile whose six traits all equal 0.5 and whose
background is empty, and a subsequent `get_profile` returns that same profile
from the same store rather than creating another. -/
theorem getProfile_lazy_default (st : Store) (aid : String)
    (hne : aid ≠ "") (habs : storeGet st aid = none) :
    (getProfile st aid).1 = defaultProfile ∧
    (getProfile st aid).1.personality.openness = 1/2 ∧
    (getProfile st aid).1.personality.conscientiousness = 1/2 ∧
    (getProfile st aid).1.personality.extraversion = 1/2 ∧
    (getProfile st aid).1.personality.agreeableness = 1/2 ∧
    (getProfile st aid).1.personality.neuroticism = 1/2 ∧
    (getProfile st aid).1.personality.bias_strength = 1/2 ∧
    (getProfile st aid).1.background = [] ∧
    getProfile (getProfile st aid).2 aid = ((getProfile st aid).1, (getProfile st aid).2) := by
  have h1 : getProfile st aid = (defaultProfile, storeSet st aid defaultProfile) := by
    simp [getProfile, habs]
  rw [h1]
  refine ⟨rfl, ?_, ?_, ?_, ?_, ?_, ?_, rfl, ?_⟩
  · norm_num [defaultProfile, defaultPersonality, mkRat, Rat.normalize]
  · norm_num [defaultProfile, defaultPersonality, mkRat, Rat.normalize]
  · norm_num [defaultProfile, defaultPersonality, mkRat, Rat.normalize]
  · norm_num [defaultProfile, defaultPersonality, mkRat, Rat.normalize]
  · norm_num [defaultProfile, defaultPersonality, mkRat, Rat.normalize]
  · norm_num [defaultProfile, defaultPersonality, mkRat, Rat.normalize]
  · simp [getProfile, storeGet_storeSet_self]

/-- C6 witness at a concrete fresh agent. -/
theorem getProfile_lazy_default_demo : (getProfile [] "agent-a").1 = defaultProfile :=
  (getProfile_lazy_default [] "agent-a" (by decide) rfl).1

/-- C7: `update_personality` overwrites exactly the supplied traits (a
subsequent `get_profile` observes the supplied values, the unsupplied traits
unchanged); any supplied value outside [0,1] raises ValidationError before
any mutation, leaving the store exactly as it was. -/
theorem updatePersonality_partial_or_reject (st : Store) (aid : String) (t : TraitUpdate) :
    (t.valid = true →
      (∀ v, t.openness = some v →
        (observedPersonality (updatePersonality st aid t).2 aid).openness = v) ∧
      (t.openness = none →
        (observedPersonality (updatePersonality st aid t).2 aid).openness =
          (profileOf st aid).personality.openness) ∧
      (∀ v, t.conscientiousness = some v →
        (observedPersonality (updatePersonality st aid t).2 aid).conscientiousness = v) ∧
      (t.conscientiousness = none →
        (observedPersonality (updatePersonality st aid t).2 aid).conscientiousness =
          (profileOf st aid).personality.conscientiousness) ∧
      (∀ v, t.extraversion = some v →
        (observedPersonality (updatePersonality st aid t).2 aid).extraversion = v) ∧
      (t.extraversion = none →
        (observedPersonality (updatePersonality st aid t).2 aid).extraversion =
          (profileOf st aid).personality.extraversion) ∧
      (∀ v, t.agreeableness = some v →
        (observedPersonality (updatePersonality st aid t).2 aid).agreeableness = v) ∧
      (t.agreeableness = none →
        (observedPersonality (updatePersonality st aid t).2 aid).agreeableness =
          (profileOf st aid).personality.agreeableness) ∧
      (∀ v, t.neuroticism = some v →
        (observedPersonality (updatePersonality st aid t).2 aid).neuroticism = v) ∧
      (t.neuroticism = none →
        (observedPersonality (updatePersonality st aid t).2 aid).neuroticism =
          (profileOf st aid).personality.neuroticism) ∧
      (∀ v, t.bias_strength = some v →
        (observedPersonality (updatePersonality st aid t).2 aid).bias_strength = v) ∧
      (t.bias_strength = none →
        (observedPersonality (updatePersonality st aid t).2 aid).bias_strength =
          (profileOf st aid).personality.bias_strength)) ∧
    (t.valid = false →
      (updatePersonality st aid t).1 = Except.error HsError.validationError ∧
      (updatePersonality st aid t).2 = st) := by
  constructor
  · intro hval
    have h2 : (updatePersonality st aid t).2 =
        storeSet st aid ⟨applyUpdate (profileOf st aid).personality t,
          (profileOf st aid).background⟩ := by
      simp [updatePersonality, hval]
    have hobs : observedPersonality (updatePersonality st aid t).2 aid =
        applyUpdate (profileOf st aid).personality t := by
      rw [h2]
      simp [observedPersonality, getProfile, storeGet_storeSet_self]
    rw [hobs]
    refine ⟨?_, ?_, ?_, ?_, ?_, ?_, ?_, ?_, ?_, ?_, ?_, ?_⟩ <;>
      first
        | (intro v hv; simp [applyUpdate, hv])
        | (intro hv; simp [applyUpdate, hv])
  · intro hval
    simp [updatePersonality, hval]

/-- C7 witness: a concrete partial update of openness to 0.9 on a fresh
agent, and a concrete out-of-bounds rejection. -/
theorem updatePersonality_partial_demo :
    (observedPersonality
      (updatePersonality [] "agent-a" ⟨some (mkRat 9 10), none, none, none, none, none⟩).2
      "agent-a").openness = mkRat 9 10 ∧
    (updatePersonality [] "agent-a" ⟨some (mkRat 2 1), none, none, none, none, none⟩).2 = [] :=
  ⟨((updatePersonality_partial_or_reject [] "agent-a"
      ⟨some (mkRat 9 10), none, none, none, none, none⟩).1 (by decide)).1 (mkRat 9 10) rfl,
   ((updatePersonality_partial_or_reject [] "agent-a"
      ⟨some (mkRat 2 1), none, none, none, none, none⟩).2 (by decide)).2⟩

theorem inUnit_clamp01 (q : ℚ) : inUnit (clamp01 q) := by
  unfold inUnit clamp01
  constructor
  · exact le_max_left 0 _
  · exact max_le (by norm_num) (min_le_left 1 q)

theorem defaultPersonality_inBounds : defaultPersonality.InBounds := by decide

theorem inferPersonality_inBounds (b : BackgroundFacts) (prior : Personality) :
    (inferPersonality b prior).InBounds := by
  refine ⟨?_, ?_, ?_, ?_, ?_, ?_⟩ <;> exact inUnit_clamp01 _

theorem applyUpdate_inBounds (p : Personality) (t : TraitUpdate)
    (hv : t.valid = true) (hp : p.InBounds) : (applyUpdate p t).InBounds := by
  unfold TraitUpdate.valid at hv
  simp only [Bool.and_eq_true] at hv
  obtain ⟨⟨⟨⟨⟨h1, h2⟩, h3⟩, h4⟩, h5⟩, h6⟩ := hv
  obtain ⟨hp1, hp2, hp3, hp4, hp5, hp6⟩ := hp
  refine ⟨?_, ?_, ?_, ?_, ?_, ?_⟩
  · cases ho : t.openness with
    | none => simpa [applyUpdate, ho] using hp1
    | some q =>
        rw [ho] at h1
        simpa [applyUpdate, ho] using of_decide_eq_true (by simpa [validTraitOpt] using h1)
  · cases ho : t.conscientiousness with
    | none => simpa [applyUpdate, ho] using hp2
    | some q =>
        rw [ho] at h2
        simpa [applyUpdate, ho] using of_decide_eq_true (by simpa [validTraitOpt] using h2)
  · cases ho : t.extraversion with
    | none => simpa [applyUpdate, ho] using hp3
    | some q =>
        rw [ho] at h3
        simpa [applyUpdate, ho] using of_decide_eq_true (by simpa [validTraitOpt] using h3)
  · cases ho : t.agreeableness with
    | none => simpa [applyUpdate, ho] using hp4
    | some q =>
        rw [ho] at h4
        simpa [applyUpdate, ho] using of_decide_eq_true (by simpa [validTraitOpt] using h4)
  · cases ho : t.neuroticism with
    | none => simpa [applyUpdate, ho] using hp5
    | some q =>
        rw [ho] at h5
        simpa [applyUpdate, ho] using of_decide_eq_true (by simpa [validTraitOpt] using h5)
  · cases ho : t.bias_strength with
    | none => simpa [applyUpdate, ho] using hp6
    | some q =>
        rw [ho] at h6
        simpa [applyUpdate, ho] using of_decide_eq_true (by simpa [validTraitOpt] using h6)

theorem profileOf_inBounds (st : Store) (aid : String)
    (h : ∀ a q, storeGet st a = some q → q.personality.InBounds) :
    (profileOf st aid).personality.InBounds := by
  unfold profileOf
  cases hg : storeGet st aid with
  | none => simpa using defaultPersonality_inBounds
  | some q => simpa using h aid q hg

/-- C1: in every reachable store — after lazy creation, after every
`update_personality` and after every `merge_background` — every stored agent
has all six personality traits within [0,1]. -/
theorem reach_trait_bounds (st : Store) (hr : Reach st) :
    ∀ aid p, storeGet st aid = some p → p.personality.InBounds := by
  induction hr with
  | empty =>
      intro aid p h
      simp [storeGet] at h
  | getP st0 aid0 _ ih =>
      intro aid p h
      unfold getProfile at h
      cases hg : storeGet st0 aid0 with
      | some q =>
          rw [hg] at h
          exact ih aid p h
      | none =>
          rw [hg] at h
          simp only [] at h
          rw [storeGet_storeSet] at h
          by_cases haid : aid = aid0
          · rw [if_pos haid] at h
            cases h
            exact defaultPersonality_inBounds
          · rw [if_neg haid] at h
            exact ih aid p h
  | updP st0 aid0 t _ ih =>
      intro aid p h
      by_cases hv : t.valid
      · have h2 : (updatePersonality st0 aid0 t).2 =
            storeSet st0 aid0 ⟨applyUpdate (profileOf st0 aid0).personality t,
              (profileOf st0 aid0).background⟩ := by
          simp [updatePersonality, hv]
        rw [h2, storeGet_storeSet] at h
        by_cases haid : aid = aid0
        · rw [if_pos haid] at h
          cases h
          exact applyUpdate_inBounds _ t hv (profileOf_inBounds st0 aid0 ih)
        · rw [if_neg haid] at h
          exact ih aid p h
      · have h2 : (updatePersonality st0 aid0 t).2 = st0 := by
          simp [updatePersonality, hv]
        rw [h2] at h
        exact ih aid p h
  | mergeW st0 aid0 u resp _ ih =>
      intro aid p h
      cases resp with
      | none =>
          have h2 : (mergeBackgroundWith st0 aid0 u none).2 = st0 := by
            simp [mergeBackgroundWith]
          rw [h2] at h
          exact ih aid p h
      | some bg =>
          by_cases hbg : bg = []
          · subst hbg
            have h2 : (mergeBackgroundWith st0 aid0 u (some [])).2 = st0 := by
              simp [mergeBackgroundWith]
            rw [h2] at h
            exact ih aid p h
          · have h2 : (mergeBackgroundWith st0 aid0 u (some bg)).2 =
                storeSet st0 aid0
                  ⟨if u then inferPersonality bg (profileOf st0 aid0).personality
                    else (profileOf st0 aid0).personality, bg⟩ := by
              simp [mergeBackgroundWith, hbg, commitMerge]
            rw [h2, storeGet_storeSet] at h
            by_cases haid : aid = aid0
            · rw [if_pos haid] at h
              cases h
              cases u with
              | true => simpa using inferPersonality_inBounds bg _
              | false => simpa using profileOf_inBounds st0 aid0 ih
            · rw [if_neg haid] at h
              exact ih aid p h

/-- C1 witness: the store reached by lazily creating one agent satisfies the
bounds at that agent. -/
theorem reach_trait_bounds_demo : defaultProfile.personality.InBounds :=
  reach_trait_bounds (getProfile [] "agent-a").2
    (Reach.getP [] "agent-a" Reach.empty) "agent-a" defaultProfile (by decide)

/-- C2: `merge_background` is idempotent — merging the same statement a second
time succeeds with the stored background unchanged (a fixed point), and the
background after the first merge addresses each topic of the statement exactly
once, never growing with repeated merges. -/
theorem mergeBackground_idem (st : Store) (aid : String) (s : StatementFacts)
    (u1 u2 : Bool) (hs : s ≠ [])
    (hnd : (topicsOf (profileOf st aid).background).Nodup) :
    (∃ r2 : MergeResult,
      (mergeBackground (mergeBackground st aid s u1).2 aid s u2).1 = Except.ok r2 ∧
      r2.background = (profileOf (mergeBackground st aid s u1).2 aid).background) ∧
    (profileOf (mergeBackground (mergeBackground st aid s u1).2 aid s u2).2 aid).background =
      (profileOf (mergeBackground st aid s u1).2 aid).background ∧
    (∀ f ∈ s, countTopic (profileOf (mergeBackground st aid s u1).2 aid).background f.1 = 1) := by
  have hbg1 : mergeFacts (profileOf st aid).background s ≠ [] :=
    mergeFacts_ne_nil _ s hs
  have h1 := mergeBackground_success st aid s u1 hbg1
  have hp1 : (profileOf (mergeBackground st aid s u1).2 aid).background =
      mergeFacts (profileOf st aid).background s := by
    rw [h1]
    simp [profileOf_storeSet_self]
  have hidem := mergeFacts_idem (profileOf st aid).background s hnd
  have hbg2 : mergeFacts (profileOf (mergeBackground st aid s u1).2 aid).background s ≠ [] := by
    rw [hp1, hidem]
    exact hbg1
  have h2 := mergeBackground_success (mergeBackground st aid s u1).2 aid s u2 hbg2
  refine ⟨⟨_, by rw [h2], ?_⟩, ?_, ?_⟩
  · show mergeFacts (profileOf (mergeBackground st aid s u1).2 aid).background s =
      (profileOf (mergeBackground st aid s u1).2 aid).background
    rw [hp1, hidem]
  · have hp2 : (profileOf (mergeBackground (mergeBackground st aid s u1).2 aid s u2).2 aid).background =
        mergeFacts (profileOf (mergeBackground st aid s u1).2 aid).background s := by
      rw [h2]
      simp [profileOf_storeSet_self]
    rw [hp2, hp1, hidem]
  · intro f hf
    rw [hp1]
    have hmem : f.1 ∈ topicsOf (mergeFacts (profileOf st aid).background s) :=
      mem_topics_mergeFacts _ s f.1 f.2 (by simpa using hf)
    have hnd1 : (topicsOf (mergeFacts (profileOf st aid).background s)).Nodup :=
      nodup_topics_mergeFacts _ s hnd
    exact List.count_eq_one_of_mem hnd1 hmem

/-- C8: recall respects the token budget — the serialized cost of the result
never exceeds max_tokens; the result is a prefix of the ranked order (facts
are included atomically, in ranked order); the engine stops exactly before
the first fact whose inclusion would exceed the budget; and the ranked order
is totally sorted by the deterministic comparison (score, then most-recent
occurred_end, then original insertion index) over a permutation of the
candidate facts. -/
theorem recallFacts_budget (facts : List MemoryFact) (maxTokens : Nat) :
    totalCost (recallFacts facts maxTokens) ≤ maxTokens ∧
    (∃ t, rankFacts facts = recallFacts facts maxTokens ++ t) ∧
    (∀ f t, rankFacts facts = recallFacts facts maxTokens ++ f :: t →
      maxTokens < totalCost (recallFacts facts maxTokens) + tokenCost f) ∧
    (rankFacts facts).Pairwise (fun a b => rankLE a b = true) ∧
    (rankFacts facts).Perm facts := by
  refine ⟨?_, ?_, ?_, rankFacts_sorted facts, rankFacts_perm facts⟩
  · have h := truncateAcc_le (rankFacts facts) maxTokens 0 (Nat.zero_le _)
    simpa [recallFacts] using h
  · exact truncateAcc_prefix (rankFacts facts) maxTokens 0
  · intro f t h
    have h2 := truncateAcc_maximal (rankFacts facts) maxTokens 0 f t h
    simpa [recallFacts] using h2

/-- C8 witness: with a zero budget no fact fits, the result is within budget,
and including the first ranked fact would exceed the budget. -/
theorem recallFacts_budget_demo :
    totalCost (recallFacts [demoFact] 0) ≤ 0 ∧
    0 < totalCost (recallFacts [demoFact] 0) + tokenCost demoFact :=
  ⟨(recallFacts_budget [demoFact] 0).1,
   (recallFacts_budget [demoFact] 0).2.2.1 demoFact [] rfl⟩

/-- C2 witness: merging a concrete statement twice into a fresh agent leaves
the stored background unchanged. -/
theorem mergeBackground_idem_demo :
    (profileOf (mergeBackground
        (mergeBackground [] "agent-a" [("role", "I am a data scientist")] false).2
        "agent-a" [("role", "I am a data scientist")] false).2 "agent-a").background =
      (profileOf (mergeBackground [] "agent-a"
        [("role", "I am a data scientist")] false).2 "agent-a").background :=
  (mergeBackground_idem [] "agent-a" [("role", "I am a data scientist")] false false
    (by decide) (by decide)).2.1

/-- C3: last-write-wins conflict resolution — after merging the Colorado
birthplace statement, the background mentions Colorado; after the subsequent
Texas birthplace statement the background mentions Texas and no longer
mentions Colorado. -/
theorem mergeBackground_conflict (st : Store) (aid : String)
    (hnd : (topicsOf (profileOf st aid).background).Nodup)
    (hcol : bgMentions (profileOf st aid).background "Colorado" = false) :
    bgMentions (profileOf (mergeBackground st aid coloradoStatement false).2 aid).background
      "Colorado" = true ∧
    bgMentions (profileOf (mergeBackground (mergeBackground st aid coloradoStatement false).2
      aid texasStatement false).2 aid).background "Texas" = true ∧
    bgMentions (profileOf (mergeBackground (mergeBackground st aid coloradoStatement false).2
      aid texasStatement false).2 aid).background "Colorado" = false := by
  have hbg1 : mergeFacts (profileOf st aid).background coloradoStatement ≠ [] :=
    mergeFacts_ne_nil _ _ (by simp [coloradoStatement])
  have h1 := mergeBackground_success st aid coloradoStatement false hbg1
  have hp1 : (profileOf (mergeBackground st aid coloradoStatement false).2 aid).background =
      upsertFact (profileOf st aid).background ("birthplace", "I was born in Colorado") := by
    rw [h1]
    simp [profileOf_storeSet_self, mergeFacts, coloradoStatement]
  have hnd1 : (topicsOf (profileOf (mergeBackground st aid coloradoStatement false).2
      aid).background).Nodup := by
    rw [hp1]
    exact nodup_topics_upsert _ _ _ hnd
  have hbg2 : mergeFacts (profileOf (mergeBackground st aid coloradoStatement false).2
      aid).background texasStatement ≠ [] :=
    mergeFacts_ne_nil _ _ (by simp [texasStatement])
  have h2 := mergeBackground_success (mergeBackground st aid coloradoStatement false).2
    aid texasStatement false hbg2
  have hp2 : (profileOf (mergeBackground (mergeBackground st aid coloradoStatement false).2
      aid texasStatement false).2 aid).background =
      upsertFact (profileOf (mergeBackground st aid coloradoStatement false).2 aid).background
        ("birthplace", "You were born in Texas") := by
    rw [h2]
    simp [profileOf_storeSet_self, mergeFacts, texasStatement]
  refine ⟨?_, ?_, ?_⟩
  · rw [hp1]
    apply List.any_eq_true.mpr
    exact ⟨("birthplace", "I was born in Colorado"), mem_upsert_self _ _ _, by decide⟩
  · rw [hp2]
    apply List.any_eq_true.mpr
    exact ⟨("birthplace", "You were born in Texas"), mem_upsert_self _ _ _, by decide⟩
  · rw [hp2]
    apply List.any_eq_false.mpr
    intro f hf
    rcases mem_upsert _ _ _ f hnd1 hf with ⟨hmem, hne⟩ | heq
    · rw [hp1] at hmem
      rcases mem_upsert _ _ _ f hnd hmem with ⟨hmem2, _⟩ | heq2
      · have := List.any_eq_false.mp hcol f hmem2
        simpa using this
      · exact absurd (by rw [heq2]) hne
    · rw [heq]
      decide

/-- C3 witness: the scenario on a fresh agent. -/
theorem mergeBackground_conflict_demo :
    bgMentions (profileOf (mergeBackground (mergeBackground [] "agent-a"
      coloradoStatement false).2 "agent-a" texasStatement false).2 "agent-a").background
      "Colorado" = false :=
  (mergeBackground_conflict [] "agent-a" (by decide) (by decide)).2.2

/-- C4: merge is atomic on external failure — when the reasoning capability is
unreachable (`none`) or returns invalid empty output, the operation fails with
ExternalServiceError and the store (background and personality) is exactly as
before the call. -/
theorem mergeBackground_atomic_failure (st : Store) (aid : String) (u : Bool)
    (resp : Option BackgroundFacts) (h : resp = none ∨ resp = some []) :
    (mergeBackgroundWith st aid u resp).1 = Except.error HsError.externalServiceError ∧
    (mergeBackgroundWith st aid u resp).2 = st := by
  rcases h with h | h <;> subst h <;> simp [mergeBackgroundWith]

/-- C4 witness: an unreachable capability leaves a concrete store untouched. -/
theorem mergeBackground_atomic_failure_demo :
    (mergeBackgroundWith [("agent-a", defaultProfile)] "agent-a" true none).2 =
      [("agent-a", defaultProfile)] :=
  (mergeBackground_atomic_failure [("agent-a", defaultProfile)] "agent-a" true none
    (Or.inl rfl)).2

/-- C5: with `update_personality = false` the merge result carries no
personality field at all, and the agent's stored personality is exactly its
value before the call, whatever the external response was. -/
theorem mergeBackground_no_personality (st : Store) (aid : String)
    (resp : Option BackgroundFacts) :
    (∀ r, (mergeBackgroundWith st aid false resp).1 = Except.ok r →
      r.personality = none) ∧
    (profileOf (mergeBackgroundWith st aid false resp).2 aid).personality =
      (profileOf st aid).personality := by
  cases resp with
  | none => simp [mergeBackgroundWith]
  | some bg =>
      by_cases hbg : bg = []
      · subst hbg
        simp [mergeBackgroundWith]
      · constructor
        · intro r hr
          simp [mergeBackgroundWith, hbg, commitMerge] at hr
          rw [← hr]
        · simp [mergeBackgroundWith, hbg, commitMerge, profileOf_storeSet_self]

/-- C5 witness: a concrete merge without personality inference returns no
personality and leaves the stored personality at its prior value. -/
theorem mergeBackground_no_personality_demo :
    (profileOf (mergeBackgroundWith [] "agent-a" false
      (some [("home", "I live in Texas")])).2 "agent-a").personality =
      (profileOf [] "agent-a").personality :=
  (mergeBackground_no_personality [] "agent-a" (some [("home", "I live in Texas")])).2

/-- C9: configuration resolution — a key already present in the environment is
never overridden by the config file; a config-file value is used when no
environment variable is set (a guarded line populates an absent key with its
parsed value, and that value reaches the corresponding configuration field);
and the built-in defaults ("openai", "gpt-4o-mini", "default") apply exactly
when neither the environment nor the config file set the relevant keys. -/
theorem getConfig_precedence (env : EnvMap) (file : Option (List String)) :
    (∀ k v, envGet env k = some v → envGet (loadConfigFile env file) k = some v) ∧
    (∀ v, envGet (loadConfigFile env file) "HINDSIGHT_EMBED_LLM_PROVIDER" = some v →
      v ≠ "" → (getConfig env file).llm_provider = v) ∧
    (envGet (loadConfigFile env file) "HINDSIGHT_EMBED_LLM_PROVIDER" = none →
      envGet (loadConfigFile env file) "HINDSIGHT_API_LLM_PROVIDER" = none →
      (getConfig env file).llm_provider = "openai") ∧
    (∀ v, envGet (loadConfigFile env file) "HINDSIGHT_EMBED_LLM_MODEL" = some v →
      v ≠ "" → (getConfig env file).llm_model = v) ∧
    (envGet (loadConfigFile env file) "HINDSIGHT_EMBED_LLM_MODEL" = none →
      envGet (loadConfigFile env file) "HINDSIGHT_API_LLM_MODEL" = none →
      (getConfig env file).llm_model = "gpt-4o-mini") ∧
    (∀ v, envGet (loadConfigFile env file) "HINDSIGHT_EMBED_BANK_ID" = some v →
      (getConfig env file).bank_id = v) ∧
    (envGet (loadConfigFile env file) "HINDSIGHT_EMBED_BANK_ID" = none →
      (getConfig env file).bank_id = "default") ∧
    (∀ line, lineGuard (pyStrip line) = true →
      envGet env (lineKey (pyStrip line)) = none →
      envGet (loadConfigFile env (some [line])) (lineKey (pyStrip line)) =
        some (lineValue (pyStrip line))) ∧
    (∀ line, lineGuard (pyStrip line) = true →
      lineKey (pyStrip line) = "HINDSIGHT_EMBED_LLM_PROVIDER" →
      envGet env "HINDSIGHT_EMBED_LLM_PROVIDER" = none →
      lineValue (pyStrip line) ≠ "" →
      (getConfig env (some [line])).llm_provider = lineValue (pyStrip line)) ∧
    (∀ line, lineGuard (pyStrip line) = true →
      lineKey (pyStrip line) = "HINDSIGHT_EMBED_LLM_MODEL" →
      envGet env "HINDSIGHT_EMBED_LLM_MODEL" = none →
      lineValue (pyStrip line) ≠ "" →
      (getConfig env (some [line])).llm_model = lineValue (pyStrip line)) ∧
    (∀ line, lineGuard (pyStrip line) = true →
      lineKey (pyStrip line) = "HINDSIGHT_EMBED_BANK_ID" →
      envGet env "HINDSIGHT_EMBED_BANK_ID" = none →
      (getConfig env (some [line])).bank_id = lineValue (pyStrip line)) := by
  refine ⟨fun k v h => loadConfigFile_keeps env file k v h,
    ?_, ?_, ?_, ?_, ?_, ?_, ?_, ?_, ?_, ?_⟩
  · intro v hv hne
    simp [getConfig, hv, pyOrStr, hne]
  · intro h1 h2
    simp [getConfig, h1, h2, pyOrStr]
  · intro v hv hne
    simp [getConfig, hv, pyOrStr, hne]
  · intro h1 h2
    simp [getConfig, h1, h2, pyOrStr]
  · intro v hv
    simp [getConfig, hv]
  · intro h
    simp [getConfig, h]
  · intro line hg habs
    exact loadConfigFile_sets_single env line hg habs
  · intro line hg hkey habs hval
    have hset := loadConfigFile_sets_single env line hg (by rw [hkey]; exact habs)
    rw [hkey] at hset
    simp [getConfig, hset, pyOrStr, hval]
  · intro line hg hkey habs hval
    have hset := loadConfigFile_sets_single env line hg (by rw [hkey]; exact habs)
    rw [hkey] at hset
    simp [getConfig, hset, pyOrStr, hval]
  · intro line hg hkey habs
    have hset := loadConfigFile_sets_single env line hg (by rw [hkey]; exact habs)
    rw [hkey] at hset
    simp [getConfig, hset]

/-- C9 witness: an environment value survives config-file loading; a
config-supplied model reaches the model field when the environment does not
set one (and an "export "-prefixed provider line likewise); a provider set in
the environment is used; and the defaults apply for a bare environment. -/
theorem getConfig_precedence_demo :
    envGet (loadConfigFile [("HINDSIGHT_EMBED_LLM_MODEL", "env-model")]
      (some ["HINDSIGHT_EMBED_LLM_MODEL=file-model"])) "HINDSIGHT_EMBED_LLM_MODEL" =
      some "env-model" ∧
    (getConfig [("HINDSIGHT_EMBED_LLM_PROVIDER", "groq")] none).llm_provider = "groq" ∧
    (getConfig [] none).llm_provider = "openai" ∧
    (getConfig [] none).llm_model = "gpt-4o-mini" ∧
    (getConfig [] none).bank_id = "default" ∧
    (getConfig [] (some ["HINDSIGHT_EMBED_LLM_MODEL=file-model"])).llm_model =
      "file-model" ∧
    (getConfig [("OPENAI_API_KEY", "sk-test")]
      (some ["export HINDSIGHT_EMBED_LLM_PROVIDER=ollama"])).llm_provider = "ollama" :=
  ⟨(getConfig_precedence [("HINDSIGHT_EMBED_LLM_MODEL", "env-model")]
      (some ["HINDSIGHT_EMBED_LLM_MODEL=file-model"])).1
      "HINDSIGHT_EMBED_LLM_MODEL" "env-model" rfl,
   (getConfig_precedence [("HINDSIGHT_EMBED_LLM_PROVIDER", "groq")] none).2.1
      "groq" rfl (by decide),
   (getConfig_precedence [] none).2.2.1 rfl rfl,
   (getConfig_precedence [] none).2.2.2.2.1 rfl rfl,
   (getConfig_precedence [] none).2.2.2.2.2.2.1 rfl,
   (getConfig_precedence [] (some ["HINDSIGHT_EMBED_LLM_MODEL=file-model"])).2.2.2.2.2.2.2.2.2.1
      "HINDSIGHT_EMBED_LLM_MODEL=file-model" (by decide) (by decide) rfl (by decide),
   (getConfig_precedence [("OPENAI_API_KEY", "sk-test")]
      (some ["export HINDSIGHT_EMBED_LLM_PROVIDER=ollama"])).2.2.2.2.2.2.2.2.1
      "export HINDSIGHT_EMBED_LLM_PROVIDER=ollama" (by decide) (by decide) rfl (by decide)⟩

/-- C10: for every recall CLI invocation, the printed object's `total` equals
the length of its `results` list; every result item carries exactly the keys
text, type, occurred_start, occurred_end, entities, context; the `entities`
entry is always a list, defaulting to the empty list when the daemon response
omits it; and every printed item comes from a daemon result. -/
theorem doRecall_output_shape (q : String) (rs : List DaemonFact) :
    (doRecallOutput q rs).total = (doRecallOutput q rs).results.length ∧
    (∀ f ∈ rs,
      (recallItem f).map Prod.fst =
        ["text", "type", "occurred_start", "occurred_end", "entities", "context"] ∧
      jLookup (recallItem f) "entities" = some (JVal.arr (f.entities.getD []))) ∧
    (∀ item ∈ (doRecallOutput q rs).results, ∃ f ∈ rs, item = recallItem f) := by
  refine ⟨by simp [doRecallOutput], ?_, ?_⟩
  · intro f _
    constructor
    · rfl
    · rfl
  · intro item hi
    simp [doRecallOutput] at hi
    obtain ⟨f, hf, he⟩ := hi
    exact ⟨f, hf, he.symm⟩

/-- C10 witness: a daemon fact with no entities field is printed with an
empty entities list, and the totals agree on a concrete result set. -/
theorem doRecall_output_shape_demo :
    jLookup (recallItem ⟨some "User prefers dark mode", none, none, none, none,
      some "general"⟩) "entities" = some (JVal.arr []) ∧
    (doRecallOutput "preferences" [⟨some "User prefers dark mode", none, none, none,
      none, some "general"⟩]).total = 1 :=
  ⟨((doRecall_output_shape "preferences" [⟨some "User prefers dark mode", none, none,
      none, none, some "general"⟩]).2.1 _ (by simp)).2,
   (doRecall_output_shape "preferences" [⟨some "User prefers dark mode", none, none,
      none, none, some "general"⟩]).1⟩

end Hindsight
